import Mathlib

/-!
Verification of the real-time EMG windowing / feature-extraction / smoothed
classification pipeline of the CPEG-CAPSTONE repository.

The embedding follows the two live-classification scripts:
  * `src/ML/pipeline.py` (live_stream_mode, servo arm dispatch), and
  * `src/ML/myowareLIVECLASSIFYING.py` (run_live, image dispatch),
whose windowing, feature-extraction and throttling code is identical.

Numeric samples are modelled as rationals; the two square roots that numpy
produces (`rms`, `std`) are taken in `ℝ` on top of the rational means.
The pre-trained scaler and SVM model are opaque artifacts loaded from disk,
so they are modelled as parameters (`sc : List ℝ → List ℝ`,
`md : List ℝ → Label`), exactly as the spec treats them ("a pre-trained,
opaque scoring function consumed by the core").
-/

namespace EMG

/-- Gesture labels are plain Python strings in the source scripts. -/
abbrev Label := String

/-- `WINDOW_SIZE = 50` (pipeline.py line 294, myowareLIVECLASSIFYING.py line 19). -/
def WINDOW_SIZE : ℕ := 50

/-- `STEP_SIZE = 10` (pipeline.py line 295, myowareLIVECLASSIFYING.py line 20). -/
def STEP_SIZE : ℕ := 10

/-- `PREDICTION_SMOOTH_WINDOW = 5` (myowareLIVECLASSIFYING.py line 22). -/
def PREDICTION_SMOOTH_WINDOW : ℕ := 5

/-- `np.diff`: consecutive differences `a[i+1] - a[i]`. -/
def npDiff (l : List ℚ) : List ℚ := List.zipWith (fun a b => b - a) l l.tail

/-- `np.sign` with the numpy convention `sign 0 = 0`. -/
def npSign (x : ℚ) : ℚ := if 0 < x then 1 else if x < 0 then -1 else 0

/-- `np.mean` of a list of rationals.  (`np.mean []` is NaN; the pipeline never
takes the mean of an empty window, and the `0` this definition returns there is
never relied on.) -/
def meanQ (l : List ℚ) : ℚ := l.sum / l.length

/-- `np.mean(s ** 2)`, the radicand of the `rms` feature (pipeline.py line 315). -/
def meanSq (l : List ℚ) : ℚ := meanQ (l.map (fun x => x ^ 2))

/-- `mean_abs = np.mean(np.abs(s))` (pipeline.py line 316). -/
def meanAbs (l : List ℚ) : ℚ := meanQ (l.map (fun x => |x|))

/-- `waveform_length = np.sum(np.abs(np.diff(s)))` (pipeline.py line 317). -/
def waveformLength (l : List ℚ) : ℚ := ((npDiff l).map (fun x => |x|)).sum

/-- `zero_cross = np.sum(np.diff(np.sign(s)) != 0)` (pipeline.py line 318). -/
def zeroCross (l : List ℚ) : ℕ :=
  (npDiff (l.map npSign)).countP (fun x => decide (x ≠ 0))

/-- `slope_changes = np.sum(np.diff(np.sign(np.diff(s))) != 0)` (pipeline.py line 319). -/
def slopeChanges (l : List ℚ) : ℕ :=
  (npDiff ((npDiff l).map npSign)).countP (fun x => decide (x ≠ 0))

/-- `var = np.var(s)`: population variance (pipeline.py line 320). -/
def varQ (l : List ℚ) : ℚ := meanQ (l.map (fun x => (x - meanQ l) ^ 2))

/-- `max = np.max(s)` (pipeline.py line 322; `np.max` raises on an empty array,
which the pipeline never feeds it — the `0` default is never relied on). -/
def maxQ : List ℚ → ℚ
  | [] => 0
  | a :: t => t.foldl max a

/-- `rms = np.sqrt(np.mean(s ** 2))` (pipeline.py line 315). -/
noncomputable def rmsR (l : List ℚ) : ℝ := Real.sqrt (meanSq l : ℝ)

/-- `std = np.std(s) = np.sqrt(np.var(s))` (pipeline.py line 321). -/
noncomputable def stdR (l : List ℚ) : ℝ := Real.sqrt (varQ l : ℝ)

/-- `compute_features` (pipeline.py lines 312-323, myowareLIVECLASSIFYING.py
lines 40-51): the Python dict returned for one window, as an association list
in the source's insertion order.  Note the feature set has no `min` entry. -/
noncomputable def compute_features (s : List ℚ) : List (String × ℝ) :=
  [("rms", rmsR s),
   ("mean_abs", (meanAbs s : ℝ)),
   ("waveform_length", (waveformLength s : ℝ)),
   ("zero_cross", (zeroCross s : ℝ)),
   ("slope_changes", (slopeChanges s : ℝ)),
   ("var", (varQ s : ℝ)),
   ("std", stdR s),
   ("max", (maxQ s : ℝ))]

/-- The `keys` list of `window_to_vector` (pipeline.py lines 327-336). -/
def featureKeys : List String :=
  ["rms", "mean_abs", "waveform_length", "zero_cross", "slope_changes", "var", "std", "max"]

/-- `v1 = np.array([f1[k] for k in keys])` (pipeline.py line 340): the per-channel
feature row in `keys` order. -/
noncomputable def featVec (s : List ℚ) : List ℝ :=
  featureKeys.map (fun k => ((compute_features s).lookup k).getD 0)

/-- `window_to_vector` (pipeline.py lines 326-343): channel 1's features
concatenated before channel 2's. -/
noncomputable def window_to_vector (w1 w2 : List ℚ) : List ℝ := featVec w1 ++ featVec w2

/-! ## Ingestion (`EMGStream.handle`, pipeline.py lines 350-356)

The BLE payload reaches `handle` as bytes; `data.decode(errors="ignore")` is
transport-layer decoding, so the payload is modelled as the decoded string.
Python's `float(text)` builtin is modelled as an opaque parameter
`parse : String → Option ℚ` (`some` = parses, `none` = raises `ValueError`);
the `try/except: pass` around it makes a failed parse leave the buffer alone. -/

/-- Python's `str.strip()` on the decoded payload: drop leading and trailing
whitespace characters. -/
def stripChars (l : List Char) : List Char :=
  ((l.dropWhile Char.isWhitespace).reverse.dropWhile Char.isWhitespace).reverse

/-- `text = data.decode(errors="ignore").strip()` (pipeline.py line 352),
restricted to the strip step. -/
def pyStrip (s : String) : String := ⟨stripChars s.data⟩

/-- `EMGStream.handle` (pipeline.py lines 350-356): on a parsable payload append
the value, otherwise swallow the exception and leave the buffer unchanged. -/
def handle (parse : String → Option ℚ) (buffer : List ℚ) (data : String) : List ℚ :=
  match parse (pyStrip data) with
  | some v => buffer ++ [v]
  | none => buffer

/-- `EMGStream.get_window` (pipeline.py lines 358-361): the trailing
`WINDOW_SIZE` samples once available, `None` before that. -/
def get_window (buffer : List ℚ) : Option (List ℚ) :=
  if WINDOW_SIZE ≤ buffer.length then some (buffer.drop (buffer.length - WINDOW_SIZE))
  else none

/-! ## Prediction smoothing (`classify`, myowareLIVECLASSIFYING.py lines 109-127) -/

/-- Lexicographic comparison of code-point sequences: the order in which
`np.unique` returns string labels. -/
def lexLE : List Char → List Char → Bool
  | [], _ => true
  | _ :: _, [] => false
  | a :: as, b :: bs =>
    if a.val.toNat < b.val.toNat then true
    else if b.val.toNat < a.val.toNat then false
    else lexLE as bs

/-- Lexicographic (code-point) order on labels. -/
def labelLE (a b : Label) : Bool := lexLE a.data b.data

/-- Insertion step of sorting the unique labels the way `np.unique` does. -/
def insertLabel (a : Label) : List Label → List Label
  | [] => [a]
  | b :: l => if labelLE a b then a :: b :: l else b :: insertLabel a l

/-- Ascending sort of labels; `np.unique(prediction_history)` returns the
distinct labels in this order. -/
def sortLabels : List Label → List Label
  | [] => []
  | a :: l => insertLabel a (sortLabels l)

/-- `values[np.argmax(counts)]` (myowareLIVECLASSIFYING.py line 126): walk the
candidate labels keeping the first one whose count is maximal (`np.argmax`
returns the first index attaining the maximum).  The `""` default for an empty
candidate list is never reached: the history just had a label pushed. -/
def bestOf (hist : List Label) : List Label → Label
  | [] => ""
  | c :: cs => cs.foldl (fun b x => if hist.count b < hist.count x then x else b) c

/-- Lines 125-126 of myowareLIVECLASSIFYING.py:
`values, counts = np.unique(prediction_history, return_counts=True);`
`smoothed = values[np.argmax(counts)]`. -/
def mostFrequent (hist : List Label) : Label := bestOf hist (sortLabels hist.dedup)

/-- Lines 121-123 of myowareLIVECLASSIFYING.py: append the raw prediction to the
history and `pop(0)` the oldest entry once the length exceeds
`PREDICTION_SMOOTH_WINDOW`. -/
def pushHistory (hist : List Label) (pred : Label) : List Label :=
  let h := hist ++ [pred]
  if PREDICTION_SMOOTH_WINDOW < h.length then h.tail else h

/-! ## Dispatch (`apply_prediction_to_arm`, pipeline.py lines 370-384;
`show_prediction_image`, myowareLIVECLASSIFYING.py lines 136-150)

Both dispatchers dedup against the previously handled label
(`last_pred` / `current_image_class`, initially `None`) and otherwise trigger
their action; the action itself (servo motion / `cv2.imshow`) is hardware I/O,
recorded here as the list of labels acted upon. -/

structure DispatchState where
  lastPred : Option Label
  actions : List Label
deriving DecidableEq

def initDispatch : DispatchState := ⟨none, []⟩

/-- `apply_prediction_to_arm` (pipeline.py lines 370-384): no-op when the label
equals the previously dispatched one, otherwise record it and act. -/
def apply_prediction_to_arm (pred : Label) (st : DispatchState) : DispatchState :=
  if st.lastPred = some pred then st
  else { lastPred := some pred, actions := st.actions ++ [pred] }

/-- Folding a smoothed-label sequence through the dispatcher from the initial
(no label yet) state. -/
def dispatchRun (ls : List Label) : DispatchState :=
  ls.foldl (fun st p => apply_prediction_to_arm p st) initDispatch

/-! ## The live loop (pipeline.py lines 387-416, myowareLIVECLASSIFYING.py
lines 157-178)

Samples arrive asynchronously on the two BLE notification callbacks while the
`while True` loop polls; an execution trace is therefore a list of events:
a sample appended to channel 1 or 2, or one iteration of the polling loop. -/

inductive Ev where
  | s1 (v : ℚ)
  | s2 (v : ℚ)
  | poll
deriving DecidableEq

/-- The scheduling skeleton the two loops share: buffers, the `last_step`
throttle marker, and (as ghost observations) the buffer lengths and the window
pair pulled at each classification attempt. -/
structure SchedState where
  buf1 : List ℚ
  buf2 : List ℚ
  lastStep : ℕ
  attempts : List (ℕ × ℕ)
  windows : List (List ℚ × List ℚ)
deriving DecidableEq

def initSched : SchedState := ⟨[], [], 0, [], []⟩

/-- One event of the loop skeleton (pipeline.py lines 399-414): a `poll` event
is one iteration of `while True`; a classification attempt fires when both
windows are available (`if w1 and w2`, where a returned window is a non-empty
list hence truthy) and at least `STEP_SIZE` new channel-1 samples arrived since
`last_step`. -/
def schedStep (st : SchedState) : Ev → SchedState
  | .s1 v => { st with buf1 := st.buf1 ++ [v] }
  | .s2 v => { st with buf2 := st.buf2 ++ [v] }
  | .poll =>
    match get_window st.buf1, get_window st.buf2 with
    | some w1, some w2 =>
      if STEP_SIZE ≤ st.buf1.length - st.lastStep then
        { st with lastStep := st.buf1.length,
                  attempts := st.attempts ++ [(st.buf1.length, st.buf2.length)],
                  windows := st.windows ++ [(w1, w2)] }
      else st
    | _, _ => st

def schedRun (es : List Ev) : SchedState := es.foldl schedStep initSched

/-- `classify` (myowareLIVECLASSIFYING.py lines 111-127): vectorize, scale,
predict, push the raw prediction into the history, and return the
majority-vote smoothed label together with the updated history. -/
noncomputable def classify (sc : List ℝ → List ℝ) (md : List ℝ → Label)
    (w1 w2 : List ℚ) (hist : List Label) : Label × List Label :=
  let pred := md (sc (window_to_vector w1 w2))
  let h := pushHistory hist pred
  (mostFrequent h, h)

/-- The live loop of pipeline.py (`live_stream_mode`, lines 387-416): the
scheduling skeleton plus, at each attempt, `x = window_to_vector(w1, w2);`
`x = scaler.transform(x); pred = model.predict(x)[0];`
`apply_prediction_to_arm(pred, arm)`.  The ghost field `handed` records the
label handed to the dispatch step at each attempt. -/
structure PipeState where
  sched : SchedState
  disp : DispatchState
  handed : List Label

def initPipe : PipeState := ⟨initSched, initDispatch, []⟩

noncomputable def pipeStep (sc : List ℝ → List ℝ) (md : List ℝ → Label)
    (st : PipeState) : Ev → PipeState
  | .s1 v => { st with sched := schedStep st.sched (.s1 v) }
  | .s2 v => { st with sched := schedStep st.sched (.s2 v) }
  | .poll =>
    match get_window st.sched.buf1, get_window st.sched.buf2 with
    | some w1, some w2 =>
      if STEP_SIZE ≤ st.sched.buf1.length - st.sched.lastStep then
        let pred := md (sc (window_to_vector w1 w2))
        { sched := schedStep st.sched .poll,
          disp := apply_prediction_to_arm pred st.disp,
          handed := st.handed ++ [pred] }
      else st
    | _, _ => st

noncomputable def pipeRun (sc : List ℝ → List ℝ) (md : List ℝ → Label)
    (es : List Ev) : PipeState :=
  es.foldl (pipeStep sc md) initPipe

/-- The live loop of myowareLIVECLASSIFYING.py (`run_live`, lines 157-178):
the same skeleton, but each attempt calls `classify` (which smooths) and hands
the smoothed label to `show_prediction_image`.  Ghost fields: `raw` records the
raw model outputs, `shown` the labels handed to the display dispatch. -/
structure LiveState where
  sched : SchedState
  history : List Label
  currentImage : Option Label
  raw : List Label
  shown : List Label

def initLive : LiveState := ⟨initSched, [], none, [], []⟩

noncomputable def liveStep (sc : List ℝ → List ℝ) (md : List ℝ → Label)
    (st : LiveState) : Ev → LiveState
  | .s1 v => { st with sched := schedStep st.sched (.s1 v) }
  | .s2 v => { st with sched := schedStep st.sched (.s2 v) }
  | .poll =>
    match get_window st.sched.buf1, get_window st.sched.buf2 with
    | some w1, some w2 =>
      if STEP_SIZE ≤ st.sched.buf1.length - st.sched.lastStep then
        let pred := md (sc (window_to_vector w1 w2))
        let h := pushHistory st.history pred
        let sm := mostFrequent h
        { sched := schedStep st.sched .poll,
          history := h,
          currentImage := if st.currentImage = some sm then st.currentImage else some sm,
          raw := st.raw ++ [pred],
          shown := st.shown ++ [sm] }
      else st
    | _, _ => st

noncomputable def liveRun (sc : List ℝ → List ℝ) (md : List ℝ → Label)
    (es : List Ev) : LiveState :=
  es.foldl (liveStep sc md) initLive

/-- The majority-vote smoothing of a raw-label sequence as a scan: the `n`-th
output is the smoothed label after the `n`-th push, starting from history
`hist`.  This is the reference against which the loops' dispatched labels are
compared. -/
def smoothScan (hist : List Label) : List Label → List Label
  | [] => []
  | p :: ps =>
    let h := pushHistory hist p
    mostFrequent h :: smoothScan h ps

/-- The lexicographic order as a relation, for `Pairwise` statements. -/
def LLE (a b : Label) : Prop := labelLE a b = true

/-- The dispatched-action log never repeats consecutively, and `lastPred`
remembers the last logged action. -/
def DispInv (st : DispatchState) : Prop :=
  st.actions.Chain' (· ≠ ·) ∧ ∀ a ∈ st.actions.getLast?, st.lastPred = some a

/-- Every classification attempt happens with both buffers full, the attempt
windows are full-size, and consecutive attempts are at least `STEP_SIZE`
channel-1 samples apart. -/
def SchedInv (st : SchedState) : Prop :=
  (∀ a ∈ st.attempts, WINDOW_SIZE ≤ a.1 ∧ WINDOW_SIZE ≤ a.2)
  ∧ st.attempts.Chain' (fun a b => a.1 + STEP_SIZE ≤ b.1)
  ∧ (∀ a ∈ st.attempts.getLast?, a.1 ≤ st.lastStep)
  ∧ (∀ p ∈ st.windows, p.1.length = WINDOW_SIZE ∧ p.2.length = WINDOW_SIZE)

/-- The classifier applied to one attempt's window pair: scale the concatenated
row, then ask the model. -/
noncomputable def rawLabel (sc : List ℝ → List ℝ) (md : List ℝ → Label)
    (p : List ℚ × List ℚ) : Label :=
  md (sc (window_to_vector p.1 p.2))

/-! ## Concrete artifacts for the claim theorems -/

/-- A trace that fills both channels and polls once: 50 channel-1 samples,
50 channel-2 samples, one loop iteration. -/
def c5Es : List Ev :=
  List.replicate 50 (Ev.s1 0) ++ List.replicate 50 (Ev.s2 0) ++ [Ev.poll]

/-- The same trace extended with 10 more channel-1 samples and a second poll:
it produces exactly two classification attempts. -/
def cexEs : List Ev :=
  List.replicate 50 (Ev.s1 0) ++ List.replicate 50 (Ev.s2 0) ++ [Ev.poll]
    ++ List.replicate 10 (Ev.s1 1) ++ [Ev.poll]

/-- A concrete stand-in for the loaded scaler artifact: the identity transform. -/
noncomputable def cexSc : List ℝ → List ℝ := id

/-- A concrete stand-in for the loaded SVM artifact: answer "A" when the first
feature of the row (channel 1's rms) is 0, otherwise "B". -/
noncomputable def cexMd : List ℝ → Label :=
  fun r => if r.head? = some (0 : ℝ) then "A" else "B"

/-! ## The lexicographic label order -/

theorem lexLE_refl (l : List Char) : lexLE l l = true := by
  induction l with
  | nil => rfl
  | cons a as ih => simp [lexLE, ih]

theorem labelLE_refl (a : Label) : LLE a a := lexLE_refl a.data

theorem lexLE_total (a b : List Char) : lexLE a b = true ∨ lexLE b a = true := by
  induction a generalizing b with
  | nil => left; rfl
  | cons x xs ih =>
    cases b with
    | nil => right; rfl
    | cons y ys =>
      simp only [lexLE]
      rcases Nat.lt_trichotomy x.val.toNat y.val.toNat with h | h | h
      · left; simp [h]
      · rcases ih ys with h' | h' <;> [left; right] <;> simp [h, h']
      · right; simp [h, Nat.lt_asymm h]

theorem labelLE_total (a b : Label) : LLE a b ∨ LLE b a := lexLE_total a.data b.data

theorem lexLE_trans {a b c : List Char} (h1 : lexLE a b = true) (h2 : lexLE b c = true) :
    lexLE a c = true := by
  induction a generalizing b c with
  | nil => rfl
  | cons x xs ih =>
    cases b with
    | nil => simp [lexLE] at h1
    | cons y ys =>
      cases c with
      | nil => simp [lexLE] at h2
      | cons z zs =>
        simp only [lexLE] at h1 h2 ⊢
        by_cases hxy : x.val.toNat < y.val.toNat <;>
          by_cases hyz : y.val.toNat < z.val.toNat <;>
          by_cases hyx : y.val.toNat < x.val.toNat <;>
          by_cases hzy : z.val.toNat < y.val.toNat <;>
          simp_all <;> first
            | omega
            | (exact Or.inr ⟨by omega, ih (b := ys) (c := zs) h1 h2⟩)

theorem labelLE_trans {a b c : Label} (h1 : LLE a b) (h2 : LLE b c) : LLE a c :=
  lexLE_trans h1 h2

/-! ## Sorting lemmas -/

theorem mem_insertLabel {x a : Label} {l : List Label} :
    x ∈ insertLabel a l ↔ x = a ∨ x ∈ l := by
  induction l with
  | nil => simp [insertLabel]
  | cons b t ih =>
    by_cases h : labelLE a b = true
    · simp [insertLabel, h]
    · simp only [insertLabel, h]
      simp [ih]
      tauto

theorem mem_sortLabels {x : Label} {l : List Label} : x ∈ sortLabels l ↔ x ∈ l := by
  induction l with
  | nil => simp [sortLabels]
  | cons a t ih => simp [sortLabels, mem_insertLabel, ih]

theorem pairwise_insertLabel {a : Label} {l : List Label}
    (h : l.Pairwise LLE) : (insertLabel a l).Pairwise LLE := by
  induction l with
  | nil => simp [insertLabel, List.Pairwise]
  | cons b t ih =>
    rcases List.pairwise_cons.mp h with ⟨hb, ht⟩
    by_cases hab : labelLE a b = true
    · rw [insertLabel, if_pos hab]
      refine List.pairwise_cons.mpr ⟨?_, h⟩
      intro y hy
      rcases List.mem_cons.mp hy with rfl | hy
      · exact hab
      · exact labelLE_trans hab (hb y hy)
    · rw [insertLabel, if_neg hab]
      refine List.pairwise_cons.mpr ⟨?_, ih ht⟩
      intro y hy
      rcases mem_insertLabel.mp hy with rfl | hy
      · rcases labelLE_total y b with h' | h'
        · exact absurd h' hab
        · exact h'
      · exact hb y hy

theorem pairwise_sortLabels (l : List Label) : (sortLabels l).Pairwise LLE := by
  induction l with
  | nil => simp [sortLabels]
  | cons a t ih => exact pairwise_insertLabel ih

/-! ## `np.argmax` over the sorted unique labels -/

theorem bestOf_spec (hist : List Label) (c : Label) (cs : List Label)
    (hs : (c :: cs).Pairwise LLE) :
    bestOf hist (c :: cs) ∈ c :: cs
    ∧ (∀ x ∈ c :: cs, hist.count x ≤ hist.count (bestOf hist (c :: cs)))
    ∧ (∀ x ∈ c :: cs, hist.count x = hist.count (bestOf hist (c :: cs)) →
        LLE (bestOf hist (c :: cs)) x) := by
  induction cs generalizing c with
  | nil =>
    refine ⟨List.mem_singleton.mpr rfl, ?_, ?_⟩
    · intro x hx; rcases List.mem_singleton.mp hx with rfl; exact le_refl _
    · intro x hx _; rcases List.mem_singleton.mp hx with rfl; exact labelLE_refl _
  | cons d ds ih =>
    rcases List.pairwise_cons.mp hs with ⟨hc, hds⟩
    by_cases hlt : hist.count c < hist.count d
    · -- the fold keeps d
      have hstep : bestOf hist (c :: d :: ds) = bestOf hist (d :: ds) := by
        simp [bestOf, hlt]
      obtain ⟨ihmem, ihmax, ihtie⟩ := ih d hds
      have hdr := ihmax d (List.mem_cons_self d ds)
      rw [hstep]
      refine ⟨List.mem_cons_of_mem c ihmem, ?_, ?_⟩
      · intro x hx
        rcases List.mem_cons.mp hx with rfl | hx
        · omega
        · exact ihmax x hx
      · intro x hx hcnt
        rcases List.mem_cons.mp hx with rfl | hx
        · omega
        · exact ihtie x hx hcnt
    · -- the fold keeps c
      have hstep : bestOf hist (c :: d :: ds) = bestOf hist (c :: ds) := by
        simp [bestOf, hlt]
      have hp' : (c :: ds).Pairwise LLE := by
        refine List.pairwise_cons.mpr ⟨?_, (List.pairwise_cons.mp hds).2⟩
        intro y hy
        exact hc y (List.mem_cons_of_mem d hy)
      obtain ⟨ihmem, ihmax, ihtie⟩ := ih c hp'
      have hcr := ihmax c (List.mem_cons_self c ds)
      rw [hstep]
      refine ⟨?_, ?_, ?_⟩
      · rcases List.mem_cons.mp ihmem with h | h
        · rw [h]; exact List.mem_cons_self c (d :: ds)
        · exact List.mem_cons_of_mem c (List.mem_cons_of_mem d h)
      · intro x hx
        rcases List.mem_cons.mp hx with rfl | hx
        · exact ihmax x (List.mem_cons_self x ds)
        rcases List.mem_cons.mp hx with rfl | hx
        · omega
        · exact ihmax x (List.mem_cons_of_mem c hx)
      · intro x hx hcnt
        rcases List.mem_cons.mp hx with rfl | hx
        · exact ihtie x (List.mem_cons_self x ds) hcnt
        rcases List.mem_cons.mp hx with rfl | hx
        · -- a tie at d forces a tie at c, which is lexicographically before d
          have hcc : hist.count c = hist.count (bestOf hist (c :: ds)) := by omega
          exact labelLE_trans (ihtie c (List.mem_cons_self c ds) hcc)
            (hc x (List.mem_cons_self x ds))
        · exact ihtie x (List.mem_cons_of_mem c hx) hcnt

/-- The smoothed label of a non-empty history: a member of the history, of
maximal count, lexicographically least among the tied labels. -/
theorem mostFrequent_spec (hist : List Label) (h : hist ≠ []) :
    mostFrequent hist ∈ hist
    ∧ (∀ b : Label, hist.count b ≤ hist.count (mostFrequent hist))
    ∧ (∀ b ∈ hist, hist.count b = hist.count (mostFrequent hist) →
        LLE (mostFrequent hist) b) := by
  have hmem : ∀ x : Label, x ∈ sortLabels hist.dedup ↔ x ∈ hist := by
    intro x; rw [mem_sortLabels, List.mem_dedup]
  obtain ⟨y, hy⟩ := List.exists_mem_of_ne_nil hist h
  have hne : sortLabels hist.dedup ≠ [] := by
    intro hnil
    exact absurd ((hmem y).mpr hy) (by simp [hnil])
  obtain ⟨c, cs, hcs⟩ := List.exists_cons_of_ne_nil hne
  have hsorted : (c :: cs).Pairwise LLE := hcs ▸ pairwise_sortLabels hist.dedup
  obtain ⟨hm, hmax, htie⟩ := bestOf_spec hist c cs hsorted
  have heq : mostFrequent hist = bestOf hist (c :: cs) := by
    rw [mostFrequent, hcs]
  refine ⟨?_, ?_, ?_⟩
  · rw [heq]; exact (hmem _).mp (hcs ▸ hm)
  · intro b
    by_cases hb : b ∈ hist
    · rw [heq]; exact hmax b (hcs ▸ (hmem b).mpr hb)
    · have : hist.count b = 0 := List.count_eq_zero.mpr hb
      omega
  · intro b hb hcnt
    rw [heq]
    exact htie b (hcs ▸ (hmem b).mpr hb) (heq ▸ hcnt)

/-! ## Window extraction -/

theorem get_window_eq_some {b w : List ℚ} :
    get_window b = some w ↔ WINDOW_SIZE ≤ b.length ∧ w = b.drop (b.length - WINDOW_SIZE) := by
  rw [get_window]
  by_cases h : WINDOW_SIZE ≤ b.length <;> simp [h, eq_comm]

theorem get_window_eq_none {b : List ℚ} :
    get_window b = none ↔ b.length < WINDOW_SIZE := by
  rw [get_window]
  by_cases h : WINDOW_SIZE ≤ b.length
  · rw [if_pos h]
    exact iff_of_false (by simp) (by omega)
  · rw [if_neg h]
    exact iff_of_true rfl (by omega)

theorem get_window_length {b w : List ℚ} (h : get_window b = some w) :
    w.length = WINDOW_SIZE := by
  obtain ⟨hle, rfl⟩ := get_window_eq_some.mp h
  rw [List.length_drop]
  omega

/-! ## Ingestion -/

theorem handle_eq (parse : String → Option ℚ) (buf : List ℚ) (d : String) :
    handle parse buf d = buf ++ (parse (pyStrip d)).toList := by
  cases h : parse (pyStrip d) <;> simp [handle, h]

theorem foldl_handle (parse : String → Option ℚ) (ds : List String) (buf : List ℚ) :
    ds.foldl (handle parse) buf = buf ++ ds.filterMap (fun s => parse (pyStrip s)) := by
  induction ds generalizing buf with
  | nil => simp
  | cons d t ih =>
    rw [List.foldl_cons, ih, handle_eq, List.filterMap_cons]
    cases parse (pyStrip d) <;> simp

/-! ## History bookkeeping -/

theorem pushHistory_length {hist : List Label} (p : Label)
    (h : hist.length ≤ PREDICTION_SMOOTH_WINDOW) :
    (pushHistory hist p).length ≤ PREDICTION_SMOOTH_WINDOW := by
  rw [pushHistory]
  simp only [PREDICTION_SMOOTH_WINDOW] at *
  by_cases hlen : 5 < (hist ++ [p]).length
  · rw [if_pos hlen]
    simpa [List.length_tail] using h
  · rw [if_neg hlen]
    simp only [List.length_append, List.length_singleton] at hlen ⊢
    omega

theorem pushHistory_full {hist : List Label} (p : Label)
    (h : hist.length = PREDICTION_SMOOTH_WINDOW) :
    pushHistory hist p = hist.tail ++ [p] := by
  simp only [PREDICTION_SMOOTH_WINDOW] at h
  cases hist with
  | nil => simp at h
  | cons a t =>
    rw [pushHistory]
    have hlen : PREDICTION_SMOOTH_WINDOW < ((a :: t) ++ [p]).length := by
      simp only [PREDICTION_SMOOTH_WINDOW, List.length_append, List.length_cons,
        List.length_singleton]
      simp at h
      omega
    rw [if_pos hlen]
    simp

theorem pushHistory_ne_nil (hist : List Label) (p : Label) :
    pushHistory hist p ≠ [] := by
  rw [pushHistory]
  by_cases hlen : PREDICTION_SMOOTH_WINDOW < (hist ++ [p]).length
  · rw [if_pos hlen]
    intro hnil
    have hl := congrArg List.length hnil
    simp only [List.length_tail, List.length_append, List.length_singleton,
      List.length_nil] at hl
    simp only [PREDICTION_SMOOTH_WINDOW, List.length_append, List.length_singleton] at hlen
    omega
  · rw [if_neg hlen]
    simp

/-! ## Dispatcher invariant -/

theorem dispInv_init : DispInv initDispatch := by
  constructor <;> simp [initDispatch]

theorem dispInv_step {st : DispatchState} (p : Label) (h : DispInv st) :
    DispInv (apply_prediction_to_arm p st) := by
  obtain ⟨hch, hlast⟩ := h
  by_cases hp : st.lastPred = some p
  · simpa [apply_prediction_to_arm, hp] using ⟨hch, hlast⟩
  · rw [apply_prediction_to_arm, if_neg hp]
    constructor
    · rw [List.chain'_append]
      refine ⟨hch, List.chain'_singleton p, ?_⟩
      intro x hx y hy
      obtain rfl : p = y := by simpa using hy
      intro hxy
      exact hp (hxy ▸ hlast x hx)
    · intro a ha
      rw [List.getLast?_concat] at ha
      obtain rfl : p = a := by simpa using ha
      rfl

theorem dispInv_run (ls : List Label) : DispInv (dispatchRun ls) := by
  rw [dispatchRun]
  generalize hst : initDispatch = st
  have h0 : DispInv st := hst ▸ dispInv_init
  clear hst
  induction ls generalizing st with
  | nil => exact h0
  | cons p t ih => exact ih _ (dispInv_step p h0)

/-! ## Scheduler invariant -/

theorem schedInv_init : SchedInv initSched := by
  refine ⟨?_, ?_, ?_, ?_⟩ <;> simp [initSched]

/-- Equation: a `poll` with both windows available and the throttle satisfied
fires a classification attempt. -/
theorem schedStep_poll_fire {st : SchedState} {w1 w2 : List ℚ}
    (h1 : get_window st.buf1 = some w1) (h2 : get_window st.buf2 = some w2)
    (hs : STEP_SIZE ≤ st.buf1.length - st.lastStep) :
    schedStep st .poll =
      { st with lastStep := st.buf1.length,
                attempts := st.attempts ++ [(st.buf1.length, st.buf2.length)],
                windows := st.windows ++ [(w1, w2)] } := by
  simp [schedStep, h1, h2, hs]

/-- Equation: a `poll` that does not fire leaves the state unchanged. -/
theorem schedStep_poll_skip {st : SchedState}
    (h : get_window st.buf1 = none ∨ get_window st.buf2 = none
      ∨ ¬ STEP_SIZE ≤ st.buf1.length - st.lastStep) :
    schedStep st .poll = st := by
  rcases h with h | h | h
  · simp [schedStep, h]
  · cases h1 : get_window st.buf1 <;> simp [schedStep, h1, h]
  · cases h1 : get_window st.buf1 <;> cases h2 : get_window st.buf2 <;>
      simp [schedStep, h1, h2, h]

theorem schedInv_step {st : SchedState} (e : Ev) (h : SchedInv st) :
    SchedInv (schedStep st e) := by
  obtain ⟨hcover, hchain, hlast, hwin⟩ := h
  cases e with
  | s1 v => exact ⟨hcover, hchain, hlast, hwin⟩
  | s2 v => exact ⟨hcover, hchain, hlast, hwin⟩
  | poll =>
    cases h1 : get_window st.buf1 with
    | none => rw [schedStep_poll_skip (Or.inl h1)]; exact ⟨hcover, hchain, hlast, hwin⟩
    | some w1 =>
      cases h2 : get_window st.buf2 with
      | none =>
        rw [schedStep_poll_skip (Or.inr (Or.inl h2))]
        exact ⟨hcover, hchain, hlast, hwin⟩
      | some w2 =>
        by_cases hstep : STEP_SIZE ≤ st.buf1.length - st.lastStep
        · rw [schedStep_poll_fire h1 h2 hstep]
          have hb1 : WINDOW_SIZE ≤ st.buf1.length := (get_window_eq_some.mp h1).1
          have hb2 : WINDOW_SIZE ≤ st.buf2.length := (get_window_eq_some.mp h2).1
          refine ⟨?_, ?_, ?_, ?_⟩
          · intro a ha
            rcases List.mem_append.mp ha with ha | ha
            · exact hcover a ha
            · rcases List.mem_singleton.mp ha with rfl
              exact ⟨hb1, hb2⟩
          · rw [List.chain'_append]
            refine ⟨hchain, List.chain'_singleton _, ?_⟩
            intro x hx y hy
            obtain rfl : (st.buf1.length, st.buf2.length) = y := by simpa using hy
            have hxs := hlast x hx
            simp only [STEP_SIZE] at hstep
            simp only [STEP_SIZE]
            omega
          · intro a ha
            rw [List.getLast?_concat] at ha
            obtain rfl : (st.buf1.length, st.buf2.length) = a := by simpa using ha
            exact le_refl _
          · intro p hp
            rcases List.mem_append.mp hp with hp | hp
            · exact hwin p hp
            · rcases List.mem_singleton.mp hp with rfl
              exact ⟨get_window_length h1, get_window_length h2⟩
        · rw [schedStep_poll_skip (Or.inr (Or.inr hstep))]
          exact ⟨hcover, hchain, hlast, hwin⟩

theorem schedInv_run (es : List Ev) : SchedInv (schedRun es) := by
  rw [schedRun]
  generalize hst : initSched = st
  have h0 : SchedInv st := hst ▸ schedInv_init
  clear hst
  induction es generalizing st with
  | nil => exact h0
  | cons e t ih => exact ih _ (schedInv_step e h0)

/-! ## Simulation of the two live loops over the scheduling skeleton -/

theorem pipeStep_sched (sc : List ℝ → List ℝ) (md : List ℝ → Label)
    (st : PipeState) (e : Ev) :
    (pipeStep sc md st e).sched = schedStep st.sched e := by
  cases e with
  | s1 v => rfl
  | s2 v => rfl
  | poll =>
    cases h1 : get_window st.sched.buf1 with
    | none => simp [pipeStep, h1, schedStep_poll_skip (Or.inl h1)]
    | some w1 =>
      cases h2 : get_window st.sched.buf2 with
      | none => simp [pipeStep, h1, h2, schedStep_poll_skip (Or.inr (Or.inl h2))]
      | some w2 =>
        by_cases hs : STEP_SIZE ≤ st.sched.buf1.length - st.sched.lastStep
        · simp [pipeStep, h1, h2, hs]
        · simp [pipeStep, h1, h2, hs, schedStep_poll_skip (Or.inr (Or.inr hs))]

theorem pipeStep_handed (sc : List ℝ → List ℝ) (md : List ℝ → Label)
    (st : PipeState) (e : Ev)
    (h : st.handed = st.sched.windows.map (rawLabel sc md)) :
    (pipeStep sc md st e).handed =
      (schedStep st.sched e).windows.map (rawLabel sc md) := by
  cases e with
  | s1 v => exact h
  | s2 v => exact h
  | poll =>
    cases h1 : get_window st.sched.buf1 with
    | none => simpa [pipeStep, h1, schedStep_poll_skip (Or.inl h1)] using h
    | some w1 =>
      cases h2 : get_window st.sched.buf2 with
      | none =>
        simpa [pipeStep, h1, h2, schedStep_poll_skip (Or.inr (Or.inl h2))] using h
      | some w2 =>
        by_cases hs : STEP_SIZE ≤ st.sched.buf1.length - st.sched.lastStep
        · rw [schedStep_poll_fire h1 h2 hs]
          simp [pipeStep, h1, h2, hs, h, rawLabel]
        · simpa [pipeStep, h1, h2, hs, schedStep_poll_skip (Or.inr (Or.inr hs))] using h

theorem pipeStep_disp (sc : List ℝ → List ℝ) (md : List ℝ → Label)
    (st : PipeState) (e : Ev) :
    (pipeStep sc md st e).disp = st.disp
    ∨ ∃ p : Label, (pipeStep sc md st e).disp = apply_prediction_to_arm p st.disp := by
  cases e with
  | s1 v => left; rfl
  | s2 v => left; rfl
  | poll =>
    cases h1 : get_window st.sched.buf1 with
    | none => left; simp [pipeStep, h1]
    | some w1 =>
      cases h2 : get_window st.sched.buf2 with
      | none => left; simp [pipeStep, h1, h2]
      | some w2 =>
        by_cases hs : STEP_SIZE ≤ st.sched.buf1.length - st.sched.lastStep
        · right
          exact ⟨md (sc (window_to_vector w1 w2)), by simp [pipeStep, h1, h2, hs]⟩
        · left; simp [pipeStep, h1, h2, hs]

/-- pipeline.py's live loop refines the scheduling skeleton, and the label it
hands to the dispatch step at each attempt is the raw model output on the
scaled, channel-1-first concatenated feature row of that attempt's windows. -/
theorem pipeRun_spec (sc : List ℝ → List ℝ) (md : List ℝ → Label) (es : List Ev) :
    (pipeRun sc md es).sched = schedRun es
    ∧ (pipeRun sc md es).handed = (schedRun es).windows.map (rawLabel sc md) := by
  rw [pipeRun, schedRun]
  have h0 : initPipe.sched = initSched ∧
      initPipe.handed = initSched.windows.map (rawLabel sc md) := by
    constructor <;> rfl
  generalize hst : initPipe = st at h0 ⊢
  generalize hss : initSched = ss at h0 ⊢
  clear hst hss
  induction es generalizing st ss with
  | nil => exact h0
  | cons e t ih =>
    rw [List.foldl_cons, List.foldl_cons]
    refine ih _ _ ⟨?_, ?_⟩
    · rw [pipeStep_sched, h0.1]
    · rw [pipeStep_handed sc md st e (h0.1 ▸ h0.2), h0.1]

theorem liveStep_sched (sc : List ℝ → List ℝ) (md : List ℝ → Label)
    (st : LiveState) (e : Ev) :
    (liveStep sc md st e).sched = schedStep st.sched e := by
  cases e with
  | s1 v => rfl
  | s2 v => rfl
  | poll =>
    cases h1 : get_window st.sched.buf1 with
    | none => simp [liveStep, h1, schedStep_poll_skip (Or.inl h1)]
    | some w1 =>
      cases h2 : get_window st.sched.buf2 with
      | none => simp [liveStep, h1, h2, schedStep_poll_skip (Or.inr (Or.inl h2))]
      | some w2 =>
        by_cases hs : STEP_SIZE ≤ st.sched.buf1.length - st.sched.lastStep
        · simp [liveStep, h1, h2, hs]
        · simp [liveStep, h1, h2, hs, schedStep_poll_skip (Or.inr (Or.inr hs))]

theorem smoothScan_append (hist : List Label) (ps : List Label) (p : Label) :
    smoothScan hist (ps ++ [p]) =
      smoothScan hist ps ++ [mostFrequent (pushHistory (ps.foldl pushHistory hist) p)] := by
  induction ps generalizing hist with
  | nil => rfl
  | cons q qs ih =>
    rw [List.cons_append, smoothScan, smoothScan, ih, List.foldl_cons]
    simp

/-- The invariant carried by myowareLIVECLASSIFYING.py's loop: the history is
the fold of the raw predictions through `pushHistory`, the displayed labels are
the smoothing scan of the raw predictions, and the raw predictions are the
model's outputs on the attempts' scaled rows. -/
theorem liveStep_ghost (sc : List ℝ → List ℝ) (md : List ℝ → Label)
    (st : LiveState) (e : Ev)
    (hh : st.history = st.raw.foldl pushHistory [])
    (hs : st.shown = smoothScan [] st.raw)
    (hr : st.raw = st.sched.windows.map (rawLabel sc md)) :
    (liveStep sc md st e).history = (liveStep sc md st e).raw.foldl pushHistory []
    ∧ (liveStep sc md st e).shown = smoothScan [] (liveStep sc md st e).raw
    ∧ (liveStep sc md st e).raw =
        (schedStep st.sched e).windows.map (rawLabel sc md) := by
  cases e with
  | s1 v => exact ⟨hh, hs, hr⟩
  | s2 v => exact ⟨hh, hs, hr⟩
  | poll =>
    cases h1 : get_window st.sched.buf1 with
    | none =>
      rw [schedStep_poll_skip (Or.inl h1)]
      simpa [liveStep, h1] using ⟨hh, hs, hr⟩
    | some w1 =>
      cases h2 : get_window st.sched.buf2 with
      | none =>
        rw [schedStep_poll_skip (Or.inr (Or.inl h2))]
        simpa [liveStep, h1, h2] using ⟨hh, hs, hr⟩
      | some w2 =>
        by_cases hstep : STEP_SIZE ≤ st.sched.buf1.length - st.sched.lastStep
        · have hfire : liveStep sc md st .poll =
              { sched := schedStep st.sched .poll,
                history := pushHistory st.history (md (sc (window_to_vector w1 w2))),
                currentImage :=
                  if st.currentImage = some (mostFrequent
                      (pushHistory st.history (md (sc (window_to_vector w1 w2))))) then
                    st.currentImage
                  else some (mostFrequent
                    (pushHistory st.history (md (sc (window_to_vector w1 w2))))),
                raw := st.raw ++ [md (sc (window_to_vector w1 w2))],
                shown := st.shown ++ [mostFrequent
                  (pushHistory st.history (md (sc (window_to_vector w1 w2))))] } := by
            simp [liveStep, h1, h2, hstep]
          rw [schedStep_poll_fire h1 h2 hstep, hfire]
          refine ⟨?_, ?_, ?_⟩
          · simp only []
            rw [hh, List.foldl_append, List.foldl_cons, List.foldl_nil]
          · simp only []
            rw [hs, hh, smoothScan_append]
          · simp [hr, rawLabel]
        · rw [schedStep_poll_skip (Or.inr (Or.inr hstep))]
          simpa [liveStep, h1, h2, hstep] using ⟨hh, hs, hr⟩

/-- myowareLIVECLASSIFYING.py's live loop: the labels handed to the image
dispatch are exactly the majority-vote smoothing scan of the raw model
outputs, which in turn are the model's answers on the attempts' scaled rows. -/
theorem liveRun_spec (sc : List ℝ → List ℝ) (md : List ℝ → Label) (es : List Ev) :
    (liveRun sc md es).shown = smoothScan [] (liveRun sc md es).raw
    ∧ (liveRun sc md es).raw = (schedRun es).windows.map (rawLabel sc md) := by
  rw [liveRun, schedRun]
  have h0 : initLive.history = initLive.raw.foldl pushHistory []
      ∧ initLive.shown = smoothScan [] initLive.raw
      ∧ initLive.raw = initSched.windows.map (rawLabel sc md)
      ∧ initLive.sched = initSched := by
    refine ⟨rfl, rfl, rfl, rfl⟩
  generalize hst : initLive = st at h0 ⊢
  generalize hss : initSched = ss at h0 ⊢
  clear hst hss
  induction es generalizing st ss with
  | nil => exact ⟨h0.2.1, h0.2.2.2 ▸ h0.2.2.1⟩
  | cons e t ih =>
    rw [List.foldl_cons, List.foldl_cons]
    obtain ⟨hh, hsh, hr, hsc⟩ := h0
    obtain ⟨hh', hsh', hr'⟩ := liveStep_ghost sc md st e hh hsh (hsc ▸ hr)
    refine ih _ _ ⟨hh', hsh', ?_, ?_⟩
    · rw [hr', hsc]
    · rw [liveStep_sched, hsc]

/-! ## Feature lemmas -/

theorem meanQ_const {l : List ℚ} {c : ℚ} (hc : ∀ x ∈ l, x = c) (hne : l ≠ []) :
    meanQ l = c := by
  rw [meanQ, List.sum_eq_card_nsmul l c hc, nsmul_eq_mul]
  have hlen : (l.length : ℚ) ≠ 0 :=
    Nat.cast_ne_zero.mpr (List.length_pos.mpr hne).ne'
  field_simp

theorem meanSq_const {l : List ℚ} {c : ℚ} (hc : ∀ x ∈ l, x = c) (hne : l ≠ []) :
    meanSq l = c ^ 2 := by
  rw [meanSq]
  refine meanQ_const ?_ (by simpa using hne)
  intro y hy
  obtain ⟨x, hx, rfl⟩ := List.mem_map.mp hy
  rw [hc x hx]

theorem varQ_const {l : List ℚ} {c : ℚ} (hc : ∀ x ∈ l, x = c) (hne : l ≠ []) :
    varQ l = 0 := by
  rw [varQ]
  refine meanQ_const ?_ (by simpa using hne)
  intro y hy
  obtain ⟨x, hx, rfl⟩ := List.mem_map.mp hy
  rw [hc x hx, meanQ_const hc hne]
  ring

theorem rmsR_const {l : List ℚ} {c : ℚ} (hc : ∀ x ∈ l, x = c) (hne : l ≠ []) :
    rmsR l = |(c : ℝ)| := by
  rw [rmsR, meanSq_const hc hne]
  push_cast
  exact Real.sqrt_sq_eq_abs _

theorem stdR_const {l : List ℚ} {c : ℚ} (hc : ∀ x ∈ l, x = c) (hne : l ≠ []) :
    stdR l = 0 := by
  rw [stdR, varQ_const hc hne]
  simp

theorem waveformLength_singleton (x : ℚ) : waveformLength [x] = 0 := rfl

theorem zeroCross_singleton (x : ℚ) : zeroCross [x] = 0 := rfl

theorem slopeChanges_singleton (x : ℚ) : slopeChanges [x] = 0 := rfl

theorem npSign_zero : npSign 0 = 0 := rfl

theorem npSign_pos {a : ℚ} (ha : 0 < a) : npSign a = 1 := if_pos ha

theorem npSign_ne_zero {b : ℚ} (hb : b ≠ 0) : npSign b ≠ 0 := by
  rw [npSign]
  rcases lt_trichotomy b 0 with h | h | h
  · rw [if_neg (not_lt.mpr h.le), if_pos h]
    norm_num
  · exact absurd h hb
  · rw [if_pos h]
    norm_num

/-- A zero sample between a positive sample and any non-zero sample counts as
two sign changes: `sign` steps `+1 → 0 → ±1`. -/
theorem zeroCross_sandwich {a b : ℚ} (ha : 0 < a) (hb : b ≠ 0) :
    zeroCross [a, 0, b] = 2 := by
  rw [zeroCross]
  have h1 : [a, 0, b].map npSign = [1, 0, npSign b] := by
    simp [npSign_pos ha, npSign_zero]
  rw [h1]
  have h2 : npDiff [1, 0, npSign b] = [0 - 1, npSign b - 0] := rfl
  rw [h2]
  have h3 : decide ((0 : ℚ) - 1 ≠ 0) = true := by norm_num
  have h4 : decide (npSign b - 0 ≠ 0) = true := by
    simpa using npSign_ne_zero hb
  simp [List.countP_cons, h3, h4]
  exact npSign_ne_zero hb

/-! ## Feature-dictionary lookups -/

theorem lookup_rms (s : List ℚ) :
    (compute_features s).lookup "rms" = some (rmsR s) := rfl

theorem lookup_mean_abs (s : List ℚ) :
    (compute_features s).lookup "mean_abs" = some ((meanAbs s : ℝ)) := rfl

theorem lookup_waveform_length (s : List ℚ) :
    (compute_features s).lookup "waveform_length" = some ((waveformLength s : ℝ)) := rfl

theorem lookup_zero_cross (s : List ℚ) :
    (compute_features s).lookup "zero_cross" = some ((zeroCross s : ℝ)) := rfl

theorem lookup_slope_changes (s : List ℚ) :
    (compute_features s).lookup "slope_changes" = some ((slopeChanges s : ℝ)) := rfl

theorem lookup_var (s : List ℚ) :
    (compute_features s).lookup "var" = some ((varQ s : ℝ)) := rfl

theorem lookup_std (s : List ℚ) :
    (compute_features s).lookup "std" = some (stdR s) := rfl

theorem lookup_max (s : List ℚ) :
    (compute_features s).lookup "max" = some ((maxQ s : ℝ)) := rfl

theorem lookup_min (s : List ℚ) :
    (compute_features s).lookup "min" = none := rfl

theorem compute_features_keys (s : List ℚ) :
    (compute_features s).map Prod.fst = featureKeys := rfl

theorem window_to_vector_head (w1 w2 : List ℚ) :
    (window_to_vector w1 w2).head? = some (rmsR w1) := rfl

/-! ## The claims -/

set_option maxRecDepth 10000

/-- C2, counterexample: `compute_features` has no `min` feature at all, so at
the window [1,2,3,4,5] the claimed `min = 1` entry of the feature vector does
not exist. -/
theorem C2_min_absent :
    (compute_features [1, 2, 3, 4, 5]).lookup "min" = none
    ∧ "min" ∉ (compute_features [1, 2, 3, 4, 5]).map Prod.fst := by
  refine ⟨lookup_min _, ?_⟩
  rw [compute_features_keys]
  decide

/-- C2 (amended): at window [1,2,3,4,5] `compute_features` yields
mean_abs = 3, waveform_length = 4, rms = √11, var = 2 (population), std = √2
and max = 5; the feature dictionary has no `min` entry. -/
theorem C2_features_of_12345 :
    (compute_features [1, 2, 3, 4, 5]).lookup "mean_abs" = some 3
    ∧ (compute_features [1, 2, 3, 4, 5]).lookup "waveform_length" = some 4
    ∧ (compute_features [1, 2, 3, 4, 5]).lookup "rms" = some (Real.sqrt 11)
    ∧ (compute_features [1, 2, 3, 4, 5]).lookup "var" = some 2
    ∧ (compute_features [1, 2, 3, 4, 5]).lookup "std" = some (Real.sqrt 2)
    ∧ (compute_features [1, 2, 3, 4, 5]).lookup "max" = some 5
    ∧ (compute_features [1, 2, 3, 4, 5]).lookup "min" = none := by
  have hmean : meanAbs [1, 2, 3, 4, 5] = 3 := by
    norm_num [meanAbs, meanQ]
  have hwl : waveformLength [1, 2, 3, 4, 5] = 4 := by
    norm_num [waveformLength, npDiff, List.zipWith]
  have hsq : meanSq [1, 2, 3, 4, 5] = 11 := by
    norm_num [meanSq, meanQ]
  have hvar : varQ [1, 2, 3, 4, 5] = 2 := by
    norm_num [varQ, meanQ]
  have hmax : maxQ [1, 2, 3, 4, 5] = 5 := by
    norm_num [maxQ, List.foldl, max_def]
  refine ⟨?_, ?_, ?_, ?_, ?_, ?_, lookup_min _⟩
  · rw [lookup_mean_abs, hmean]
    norm_num
  · rw [lookup_waveform_length, hwl]
    norm_num
  · rw [lookup_rms, rmsR, hsq]
    norm_num
  · rw [lookup_var, hvar]
    norm_num
  · rw [lookup_std, stdR, hvar]
    norm_num
  · rw [lookup_max, hmax]
    norm_num

/-- C3: the smoother's history is a FIFO bounded by 5 that evicts the oldest
entry when full, and the two five-label sequences of the spec smooth to "A"
and "B" respectively. -/
theorem C3_smoother (hist hist5 : List Label) (p q : Label)
    (h : hist.length ≤ PREDICTION_SMOOTH_WINDOW)
    (h5 : hist5.length = PREDICTION_SMOOTH_WINDOW) :
    (pushHistory hist p).length ≤ PREDICTION_SMOOTH_WINDOW
    ∧ pushHistory hist5 q = hist5.tail ++ [q]
    ∧ mostFrequent (List.foldl pushHistory [] ["A", "A", "B", "A", "B"]) = "A"
    ∧ mostFrequent (List.foldl pushHistory [] ["A", "B", "B", "A", "B"]) = "B" :=
  ⟨pushHistory_length p h, pushHistory_full q h5, by decide, by decide⟩

theorem C3_smoother_witness :
    (pushHistory ["A", "A", "B", "A"] "B").length ≤ PREDICTION_SMOOTH_WINDOW
    ∧ pushHistory ["A", "A", "B", "A", "B"] "A" = ["A", "A", "B", "A", "B"].tail ++ ["A"]
    ∧ mostFrequent (List.foldl pushHistory [] ["A", "A", "B", "A", "B"]) = "A"
    ∧ mostFrequent (List.foldl pushHistory [] ["A", "B", "B", "A", "B"]) = "B" :=
  C3_smoother ["A", "A", "B", "A"] ["A", "A", "B", "A", "B"] "B" "A" (by decide) (by decide)

/-- C4: the dispatcher is a no-op when the label equals the previously
dispatched one, the action log never repeats consecutively, and the sequence
[A,A,A,B,B,A] from the initial state dispatches exactly A, B, A. -/
theorem C4_dispatcher (ls : List Label) (p : Label) (st : DispatchState)
    (h : st.lastPred = some p) :
    apply_prediction_to_arm p st = st
    ∧ (dispatchRun ls).actions.Chain' (· ≠ ·)
    ∧ (dispatchRun ["A", "A", "A", "B", "B", "A"]).actions = ["A", "B", "A"] := by
  refine ⟨?_, (dispInv_run ls).1, by decide⟩
  rw [apply_prediction_to_arm, if_pos h]

theorem C4_dispatcher_witness :
    apply_prediction_to_arm "A" ⟨some "A", ["A"]⟩ = ⟨some "A", ["A"]⟩
    ∧ (dispatchRun ["A"]).actions.Chain' (· ≠ ·)
    ∧ (dispatchRun ["A", "A", "A", "B", "B", "A"]).actions = ["A", "B", "A"] :=
  C4_dispatcher ["A"] "A" ⟨some "A", ["A"]⟩ rfl

/-- C5: in every trace of the live loop, every classification attempt happens
with both buffers at ≥ 50 samples, and consecutive attempts are at least 10
channel-1 samples apart. -/
theorem C5_throttle (es : List Ev) (a : ℕ × ℕ)
    (ha : a ∈ (schedRun es).attempts) :
    (WINDOW_SIZE ≤ a.1 ∧ WINDOW_SIZE ≤ a.2)
    ∧ (schedRun es).attempts.Chain' (fun x y => x.1 + STEP_SIZE ≤ y.1) := by
  obtain ⟨hcov, hch, -, -⟩ := schedInv_run es
  exact ⟨hcov a ha, hch⟩

theorem C5_throttle_witness :
    (WINDOW_SIZE ≤ (50, 50).1 ∧ WINDOW_SIZE ≤ (50, 50).2)
    ∧ (schedRun c5Es).attempts.Chain' (fun x y => x.1 + STEP_SIZE ≤ y.1) :=
  C5_throttle c5Es (50, 50) (by decide)

/-- C6: `get_window` is `None` below 50 samples, returns exactly the trailing
50 samples once available, and the returned window is a value independent of
the buffer: an append leaves the buffer's old prefix, hence the window already
returned from it, unchanged. -/
theorem C6_get_window (bshort b w : List ℚ) (v : ℚ)
    (hshort : bshort.length < WINDOW_SIZE) (hlong : WINDOW_SIZE ≤ b.length)
    (hw : get_window b = some w) :
    get_window bshort = none
    ∧ get_window b = some (b.drop (b.length - WINDOW_SIZE))
    ∧ (b.drop (b.length - WINDOW_SIZE)).length = WINDOW_SIZE
    ∧ b.take (b.length - WINDOW_SIZE) ++ b.drop (b.length - WINDOW_SIZE) = b
    ∧ get_window ((b ++ [v]).take b.length) = some w := by
  refine ⟨get_window_eq_none.mpr hshort, get_window_eq_some.mpr ⟨hlong, rfl⟩,
    ?_, List.take_append_drop _ _, ?_⟩
  · rw [List.length_drop]; omega
  · rw [List.take_left]; exact hw

theorem C6_get_window_witness :
    get_window [] = none
    ∧ get_window (List.replicate 50 (0 : ℚ)) =
        some ((List.replicate 50 (0 : ℚ)).drop ((List.replicate 50 (0 : ℚ)).length - WINDOW_SIZE))
    ∧ ((List.replicate 50 (0 : ℚ)).drop ((List.replicate 50 (0 : ℚ)).length - WINDOW_SIZE)).length = WINDOW_SIZE
    ∧ (List.replicate 50 (0 : ℚ)).take ((List.replicate 50 (0 : ℚ)).length - WINDOW_SIZE)
        ++ (List.replicate 50 (0 : ℚ)).drop ((List.replicate 50 (0 : ℚ)).length - WINDOW_SIZE)
        = List.replicate 50 (0 : ℚ)
    ∧ get_window ((List.replicate 50 (0 : ℚ) ++ [1]).take (List.replicate 50 (0 : ℚ)).length) =
        some (List.replicate 50 (0 : ℚ)) :=
  C6_get_window [] (List.replicate 50 0) (List.replicate 50 0) 1
    (by decide) (by decide) (by decide)

/-- C7: for a one-sample window the difference-based features degrade to 0,
and for a constant window of length ≥ 2 the variance and standard deviation
are 0 and the rms is the absolute value of the constant. -/
theorem C7_degenerate_windows (x : ℚ) (l : List ℚ) (c : ℚ)
    (hl : 2 ≤ l.length) (hc : ∀ y ∈ l, y = c) :
    waveformLength [x] = 0 ∧ zeroCross [x] = 0 ∧ slopeChanges [x] = 0
    ∧ varQ l = 0 ∧ stdR l = 0 ∧ rmsR l = |(c : ℝ)| := by
  have hne : l ≠ [] := by
    intro hnil
    rw [hnil] at hl
    simp at hl
  exact ⟨rfl, rfl, rfl, varQ_const hc hne, stdR_const hc hne, rmsR_const hc hne⟩

theorem C7_degenerate_windows_witness :
    waveformLength [7] = 0 ∧ zeroCross [7] = 0 ∧ slopeChanges [7] = 0
    ∧ varQ [2, 2] = 0 ∧ stdR [2, 2] = 0 ∧ rmsR [2, 2] = |((2 : ℚ) : ℝ)| :=
  C7_degenerate_windows 7 [2, 2] 2 (by decide) (by decide)

/-- C8: the ingestion handler appends exactly one sample when the stripped
payload parses, leaves the buffer untouched (no exception) when it does not,
and a payload sequence lands in the buffer in arrival order with no
reordering or deduplication. -/
theorem C8_ingestion (parse : String → Option ℚ) (buf : List ℚ)
    (dgood dbad : String) (v : ℚ) (ds : List String)
    (hgood : parse (pyStrip dgood) = some v) (hbad : parse (pyStrip dbad) = none) :
    handle parse buf dgood = buf ++ [v]
    ∧ handle parse buf dbad = buf
    ∧ ds.foldl (handle parse) buf = buf ++ ds.filterMap (fun s => parse (pyStrip s)) := by
  refine ⟨?_, ?_, foldl_handle parse ds buf⟩
  · rw [handle_eq, hgood]
    rfl
  · rw [handle_eq, hbad]
    simp

theorem C8_ingestion_witness :
    handle (fun s => if s = "1" then some 1 else none) [] " 1 " = [] ++ [1]
    ∧ handle (fun s => if s = "1" then some 1 else none) [] "x" = []
    ∧ [" 1 ", "x"].foldl (handle (fun s => if s = "1" then some 1 else none)) []
        = [] ++ [" 1 ", "x"].filterMap
            (fun s => (fun t => if t = "1" then some 1 else none) (pyStrip s)) :=
  C8_ingestion (fun s => if s = "1" then some 1 else none) [] " 1 " "x" 1 [" 1 ", "x"]
    (by decide) (by decide)

/-- C9: the smoothed label of a non-empty history is a member of maximal
count; ties go to the lexicographically smallest tied label (`np.unique`
returns the candidates sorted, `np.argmax` keeps the first maximum); in
particular [A,B] smooths to A. -/
theorem C9_tie_break (hist : List Label) (b' b : Label)
    (h : hist ≠ []) (hb : b ∈ hist)
    (ht : hist.count b = hist.count (mostFrequent hist)) :
    mostFrequent hist ∈ hist
    ∧ hist.count b' ≤ hist.count (mostFrequent hist)
    ∧ LLE (mostFrequent hist) b
    ∧ mostFrequent ["A", "B"] = "A" := by
  obtain ⟨hm, hmax, htie⟩ := mostFrequent_spec hist h
  exact ⟨hm, hmax b', htie b hb ht, by decide⟩

theorem C9_tie_break_witness :
    mostFrequent ["A", "B"] ∈ (["A", "B"] : List Label)
    ∧ (["A", "B"] : List Label).count "B" ≤ (["A", "B"] : List Label).count (mostFrequent ["A", "B"])
    ∧ LLE (mostFrequent ["A", "B"]) "A"
    ∧ mostFrequent ["A", "B"] = "A" :=
  C9_tie_break ["A", "B"] "B" "A" (by decide) (by decide) (by decide)

/-- C10: the sign convention `sign 0 = 0` makes a zero sample between a
positive sample and any non-zero sample contribute two counted sign changes:
[1,0,-1] and [1,0,1] both have zero_cross = 2, and so does [a,0,b] for any
a > 0, b ≠ 0. -/
theorem C10_sign_convention (a b : ℚ) (ha : 0 < a) (hb : b ≠ 0) :
    zeroCross [1, 0, -1] = 2
    ∧ zeroCross [1, 0, 1] = 2
    ∧ zeroCross [a, 0, b] = 2 :=
  ⟨zeroCross_sandwich (by norm_num) (by norm_num),
   zeroCross_sandwich (by norm_num) (by norm_num),
   zeroCross_sandwich ha hb⟩

theorem C10_sign_convention_witness :
    zeroCross [1, 0, -1] = 2
    ∧ zeroCross [1, 0, 1] = 2
    ∧ zeroCross [1, 0, -1] = 2 :=
  C10_sign_convention 1 (-1) (by norm_num) (by norm_num)

/-- C1, counterexample: in pipeline.py's `live_stream_mode` the label handed
to the dispatch step is the raw model output, not the smoothed one.  With the
identity scaler and a model answering "A" on a zero-rms channel-1 window and
"B" otherwise, the trace `cexEs` hands [A, B] to `apply_prediction_to_arm`,
while the majority-vote smoothing of the raw history [A, B] yields [A, A]:
at the second attempt the dispatched label "B" differs from the smoothed
label "A". -/
theorem C1_raw_dispatch_counterexample :
    (pipeRun cexSc cexMd cexEs).handed = ["A", "B"]
    ∧ smoothScan [] ["A", "B"] = ["A", "A"]
    ∧ (["A", "B"] : List Label) ≠ ["A", "A"] := by
  have hw : (schedRun cexEs).windows =
      [(List.replicate 50 0, List.replicate 50 0),
       (List.replicate 40 0 ++ List.replicate 10 1, List.replicate 50 0)] := by
    decide
  have hhand := (pipeRun_spec cexSc cexMd cexEs).2
  rw [hw] at hhand
  have hr0 : rmsR (List.replicate 50 (0 : ℚ)) = 0 := by
    rw [rmsR, show meanSq (List.replicate 50 (0 : ℚ)) = 0 from by
      norm_num [meanSq, meanQ, List.map_replicate, List.sum_replicate]]
    simp
  have hr1 : rmsR (List.replicate 40 (0 : ℚ) ++ List.replicate 10 1) ≠ 0 := by
    rw [rmsR, show meanSq (List.replicate 40 (0 : ℚ) ++ List.replicate 10 1) = 1 / 5 from by
      norm_num [meanSq, meanQ, List.map_replicate, List.sum_replicate, List.map_append,
        List.sum_append]]
    have : (0 : ℝ) < ((1 / 5 : ℚ) : ℝ) := by norm_num
    exact ne_of_gt (Real.sqrt_pos.mpr this)
  have h1 : rawLabel cexSc cexMd (List.replicate 50 0, List.replicate 50 0) = "A" := by
    rw [rawLabel]
    show cexMd (cexSc (window_to_vector _ _)) = "A"
    rw [show cexSc (window_to_vector (List.replicate 50 0) (List.replicate 50 0)) =
        window_to_vector (List.replicate 50 0) (List.replicate 50 0) from rfl]
    rw [cexMd, window_to_vector_head, hr0, if_pos rfl]
  have h2 : rawLabel cexSc cexMd
      (List.replicate 40 0 ++ List.replicate 10 1, List.replicate 50 0) = "B" := by
    rw [rawLabel]
    show cexMd (cexSc (window_to_vector _ _)) = "B"
    rw [show cexSc (window_to_vector (List.replicate 40 0 ++ List.replicate 10 1)
        (List.replicate 50 0)) =
        window_to_vector (List.replicate 40 0 ++ List.replicate 10 1)
        (List.replicate 50 0) from rfl]
    rw [cexMd, window_to_vector_head]
    rw [if_neg]
    intro hcon
    exact hr1 (Option.some_injective _ hcon)
  refine ⟨?_, by decide, by decide⟩
  rw [hhand, List.map_cons, List.map_cons, List.map_nil, h1, h2]

/-- C1 (amended): at every classification attempt both live loops pull one
window per channel (both full-size), build the row as channel 1's features
before channel 2's, and apply the scaler before the model; in
myowareLIVECLASSIFYING.py the label handed to the display dispatch is the
majority-vote smoothed label over the prediction history, but in pipeline.py's
`live_stream_mode` the label handed to `apply_prediction_to_arm` is the raw
per-window model output — that loop keeps no prediction history. -/
theorem C1_attempt_structure (sc : List ℝ → List ℝ) (md : List ℝ → Label)
    (es : List Ev) (w1 w2 : List ℚ) (hist : List Label)
    (pw : List ℚ × List ℚ) (hpw : pw ∈ (schedRun es).windows) :
    (pipeRun sc md es).handed = (schedRun es).windows.map (rawLabel sc md)
    ∧ rawLabel sc md pw = md (sc (featVec pw.1 ++ featVec pw.2))
    ∧ pw.1.length = WINDOW_SIZE ∧ pw.2.length = WINDOW_SIZE
    ∧ (classify sc md w1 w2 hist).1 =
        mostFrequent (pushHistory hist (md (sc (featVec w1 ++ featVec w2))))
    ∧ (liveRun sc md es).shown = smoothScan [] (liveRun sc md es).raw
    ∧ (liveRun sc md es).raw = (schedRun es).windows.map (rawLabel sc md) := by
  obtain ⟨-, -, -, hwin⟩ := schedInv_run es
  obtain ⟨hsched, hhand⟩ := pipeRun_spec sc md es
  obtain ⟨hshown, hraw⟩ := liveRun_spec sc md es
  exact ⟨hhand, rfl, (hwin pw hpw).1, (hwin pw hpw).2, rfl, hshown, hraw⟩

theorem C1_attempt_structure_witness :
    (pipeRun cexSc (fun _ => "A") c5Es).handed =
      (schedRun c5Es).windows.map (rawLabel cexSc (fun _ => "A"))
    ∧ rawLabel cexSc (fun _ => "A") (List.replicate 50 0, List.replicate 50 0) =
        (fun _ => "A") (cexSc (featVec (List.replicate 50 0) ++ featVec (List.replicate 50 0)))
    ∧ (List.replicate 50 (0 : ℚ)).length = WINDOW_SIZE
    ∧ (List.replicate 50 (0 : ℚ)).length = WINDOW_SIZE
    ∧ (classify cexSc (fun _ => "A") [] [] []).1 =
        mostFrequent (pushHistory [] ((fun _ => "A") (cexSc (featVec [] ++ featVec []))))
    ∧ (liveRun cexSc (fun _ => "A") c5Es).shown =
        smoothScan [] (liveRun cexSc (fun _ => "A") c5Es).raw
    ∧ (liveRun cexSc (fun _ => "A") c5Es).raw =
        (schedRun c5Es).windows.map (rawLabel cexSc (fun _ => "A")) := by
  have h := C1_attempt_structure cexSc (fun _ => "A") c5Es [] [] []
    (List.replicate 50 0, List.replicate 50 0) (by decide)
  exact h

end EMG
